import Mathlib

/-!
# Shmeact: a shallow embedding of the reconciliation engine

This file embeds the core of `src/shmeact.ts` (with the class-based rewrite in
`src/index.tsx` consulted where the claims cite it) as executable Lean
definitions, and proves or refutes the frozen claims about it.

Modelling conventions:
* JS values that appear as props/keys/state are modelled by `Val`
  (strings, integer numbers, `undefined`); JS `===` on them is `DecidableEq`.
* Component functions are identified by a `Nat` id; their render behaviour is
  supplied by an environment `Env` mapping the id, props and children to the
  returned element spec.  This models components that do not themselves use
  hooks; the hook state engine (`useState` / `useEffect` / `runEffect`) is
  embedded separately below, exactly following the source.
* JS object identity of virtual-DOM nodes is modelled by a unique `uid`
  allocated from a counter; for Host/Text nodes the `uid` doubles as the
  handle of the underlying output-medium (DOM) node.
* The output medium is a tree of `DNode`s; every mutation also appends a
  `DomOp` record to a trace so that theorems can count creations, moves and
  removals.
* Mutable in-place updates of the source become state passing.  The source's
  `updateParentsDomNodeCount` mutates every non-Host ancestor by a delta; in
  the pure embedding each operation returns the delta that crosses its own
  boundary and callers apply it to their own count, which is the same
  bookkeeping expressed bottom-up.
* General recursion through component re-rendering is made total with a
  `fuel` counter; out of fuel returns `none` (claims use concrete fuel).
-/

/-- A JS value as used for keys, props and state slots. -/
inductive Val where
  | str (s : String)
  | num (n : Int)
  | undef
deriving DecidableEq, Repr

/-- JS `String(x)` for the values we model. -/
def valString : Val → String
  | .str s => s
  | .num n => toString n
  | .undef => "undefined"

/-- The prop bag of a spec or node.  The claims only exercise the `key` prop
(`props?.key`); the remaining key/value entries are a pass-through sync to the
output medium (spec §1 treats attribute translation as out of scope) and are
recorded in the trace as a single `setAttrs` operation. -/
structure Props where
  key : Val := Val.undef
deriving DecidableEq, Repr

/-- `ShmeactElementSpec`: component spec, DOM (host) spec, text, array or
null.  `children` is `ShmeactElementSpec[] | null` in the source, hence
`Option (List Spec)`, and the lists may contain `nil` entries. -/
inductive Spec where
  | comp (fn : Nat) (props : Option Props) (children : Option (List Spec))
  | dom (tag : String) (props : Option Props) (children : Option (List Spec))
  | text (v : Val)
  | arr (items : List Spec)
  | nil

/-- `props?.key` — a missing bag or a missing key both read as `undefined`. -/
def keyOf : Option Props → Val
  | none => .undef
  | some p => p.key

/-- A rendered virtual-DOM node (`ShmeactElement`).  `count` is the
`domNodesCount` field; for Host (`elem`) and Text nodes the source declares it
with literal type `1` but we keep the stored field to mirror the runtime
object.  `uid` models JS object identity; for `elem`/`text` it is also the
handle of the real DOM node.  Component hook-slot arrays are omitted here
because environment components are pure; the hook engine is embedded
separately below. -/
inductive VNode where
  | comp (uid : Nat) (fn : Nat) (props : Option Props) (children : Option (List Spec))
      (rendered : Option VNode) (count : Int)
  | elem (uid : Nat) (tag : String) (props : Option Props) (childNodes : List VNode) (count : Int)
  | text (uid : Nat) (v : Val) (count : Int)
  | arr (uid : Nat) (childNodes : List VNode) (count : Int)

namespace VNode

def uid : VNode → Nat
  | .comp u _ _ _ _ _ => u
  | .elem u _ _ _ _ => u
  | .text u _ _ => u
  | .arr u _ _ => u

def count : VNode → Int
  | .comp _ _ _ _ _ c => c
  | .elem _ _ _ _ c => c
  | .text _ _ c => c
  | .arr _ _ c => c

def isText : VNode → Bool
  | .text _ _ _ => true
  | _ => false

def isArr : VNode → Bool
  | .arr _ _ _ => true
  | _ => false

end VNode

/-- Sum of `domNodesCount` over a list of nodes. -/
def sumCounts (l : List VNode) : Int :=
  l.foldr (fun n a => n.count + a) 0

/-- `canUpdate(existing, updated)` from `src/shmeact.ts`: true iff `existing`
is non-null, `updated` is non-null, and: both DOM with equal tag, or both
component with equal function, or existing array with array spec, or existing
is a Text node (which matches any non-null spec).  Note that keys are NOT
consulted here. -/
def canUpdate (existing : Option VNode) (updated : Spec) : Bool :=
  match existing with
  | none => false
  | some e =>
    (match updated with
     | Spec.nil => false
     | _ => true) &&
      ((match e, updated with
        | .elem _ t _ _ _, .dom t2 _ _ => t = t2
        | _, _ => false)
       || (match e, updated with
        | .comp _ f _ _ _ _, .comp f2 _ _ => f = f2
        | _, _ => false)
       || (match e, updated with
        | .arr _ _ _, .arr _ => true
        | _, _ => false)
       || e.isText)

/-- First element satisfying `pred`, together with its position.  The source
returns the found object and later recovers its position with the
identity-based `indexOf`, which is this position (a live node occupies
exactly one `childNodes` slot). -/
def findFrom (pred : VNode → Bool) (i : Nat) : List VNode → Option (Nat × VNode)
  | [] => none
  | e :: rest => if pred e then some (i, e) else findFrom pred (i + 1) rest

/-- `findMatching(source, targetArray, used)` from `src/shmeact.ts`: find the
first not-yet-used rendered element compatible with the spec, respecting the
`key` prop for DOM and component specs.  The `used` set is the set of uids of
already reconciled nodes. -/
def findMatching (source : Spec) (targetArray : List VNode) (used : List Nat) :
    Option (Nat × VNode) :=
  match source with
  | .dom tag props _ =>
    findFrom (fun e => !used.contains e.uid &&
      (match e with
       | .elem _ t p _ _ => t = tag && keyOf p = keyOf props
       | _ => false)) 0 targetArray
  | .comp fn props _ =>
    findFrom (fun e => !used.contains e.uid &&
      (match e with
       | .comp _ f p _ _ _ => f = fn && keyOf p = keyOf props
       | _ => false)) 0 targetArray
  | .arr _ =>
    findFrom (fun e => !used.contains e.uid && e.isArr) 0 targetArray
  | _ =>
    findFrom (fun e => !used.contains e.uid && e.isText) 0 targetArray

/-! ## The output medium

An ordered tree of mutable nodes (spec §6).  Node `0` is the root container
handed to `createRoot`.  Every mutation is recorded as a `DomOp`. -/

/-- Trace record of one output-medium mutation. -/
inductive DomOp where
  | createEl (id : Nat)
  | createText (id : Nat)
  | attach (id : Nat) (parent : Nat) (offset : Int)
  | moveOp (id : Nat) (parent : Nat) (offset : Int)
  | removeOp (id : Nat)
  | setText (id : Nat) (s : String)
  | setAttrs (id : Nat)
deriving DecidableEq, Repr

/-- A real DOM node: element with ordered children, or text. -/
inductive DNode where
  | el (id : Nat) (tag : String) (kids : List DNode)
  | tx (id : Nat) (s : String)

def DNode.nodeId : DNode → Nat
  | .el i _ _ => i
  | .tx i _ => i

mutual

/-- Detach the subtree whose root has id `i` (first occurrence) from the
children of a node, returning the pruned node and the detached subtree. -/
def removeIn (i : Nat) : DNode → DNode × Option DNode
  | .tx j s => (.tx j s, none)
  | .el j t kids =>
    let r := removeInList i kids
    (.el j t r.1, r.2)

def removeInList (i : Nat) : List DNode → List DNode × Option DNode
  | [] => ([], none)
  | n :: rest =>
    if n.nodeId = i then (rest, some n)
    else
      let r := removeIn i n
      match r.2 with
      | some f => (r.1 :: rest, some f)
      | none =>
        let r2 := removeInList i rest
        (r.1 :: r2.1, r2.2)

end

mutual

/-- Apply `g` to the child list of the element with id `p`. -/
def updateKidsAt (p : Nat) (g : List DNode → Option (List DNode)) :
    DNode → Option DNode
  | .tx _ _ => none
  | .el j t kids =>
    if j = p then
      match g kids with
      | some ks => some (.el j t ks)
      | none => none
    else
      match updateKidsAtList p g kids with
      | some ks => some (.el j t ks)
      | none => none

def updateKidsAtList (p : Nat) (g : List DNode → Option (List DNode)) :
    List DNode → Option (List DNode)
  | [] => none
  | n :: rest =>
    match updateKidsAt p g n with
    | some n2 => some (n2 :: rest)
    | none =>
      match updateKidsAtList p g rest with
      | some rest2 => some (n :: rest2)
      | none => none

end

mutual

/-- Child list of the element with id `p`, if present in the tree. -/
def kidsOf (p : Nat) : DNode → Option (List DNode)
  | .tx _ _ => none
  | .el j _ kids => if j = p then some kids else kidsOfList p kids

def kidsOfList (p : Nat) : List DNode → Option (List DNode)
  | [] => none
  | n :: rest =>
    match kidsOf p n with
    | some ks => some ks
    | none => kidsOfList p rest

end

/-- Insert `n` immediately after the child with id `refId`. -/
def insertAfterId (refId : Nat) (n : DNode) : List DNode → Option (List DNode)
  | [] => none
  | k :: rest =>
    if k.nodeId = refId then some (k :: n :: rest)
    else
      match insertAfterId refId n rest with
      | some rest2 => some (k :: rest2)
      | none => none

/-- `appendChild(node, parent, offset)` for a freshly created node, from
`src/shmeact.ts`: offset `0` prepends, otherwise the node goes right after the
current child at `offset - 1` (missing reference child is a JS `TypeError`,
hence `none`). -/
def attachNew (n : DNode) (parentId : Nat) (offset : Int) (t : DNode) :
    Option DNode :=
  if offset = 0 then updateKidsAt parentId (fun ks => some (n :: ks)) t
  else if offset < 0 then none
  else
    match kidsOf parentId t with
    | none => none
    | some ks =>
      match ks.get? (offset.toNat - 1) with
      | none => none
      | some ref => updateKidsAt parentId (insertAfterId ref.nodeId n) t

/-- `appendChild` applied to a node that is already in the document — the DOM
`prepend`/`after` primitives first look up the reference child, then remove
the node from its old position, then insert it.  A reference child equal to
the node itself leaves the tree unchanged. -/
def moveDomNode (i : Nat) (parentId : Nat) (offset : Int) (t : DNode) :
    Option DNode :=
  if offset = 0 then
    let r := removeIn i t
    match r.2 with
    | none => none
    | some s => updateKidsAt parentId (fun ks => some (s :: ks)) r.1
  else if offset < 0 then none
  else
    match kidsOf parentId t with
    | none => none
    | some ks =>
      match ks.get? (offset.toNat - 1) with
      | none => none
      | some ref =>
        if ref.nodeId = i then some t
        else
          let r := removeIn i t
          match r.2 with
          | none => none
          | some s => updateKidsAt parentId (insertAfterId ref.nodeId s) r.1

mutual

/-- Set the character data of the text node with id `i`. -/
def setTextAt (i : Nat) (s : String) : DNode → Option DNode
  | .tx j s0 => if j = i then some (.tx j s) else some (.tx j s0)
  | .el j t kids =>
    match setTextAtList i s kids with
    | some ks => some (.el j t ks)
    | none => none

def setTextAtList (i : Nat) (s : String) : List DNode → Option (List DNode)
  | [] => some []
  | n :: rest =>
    match setTextAt i s n with
    | some n2 =>
      match setTextAtList i s rest with
      | some rest2 => some (n2 :: rest2)
      | none => none
    | none => none

end

/-- The mutable world around the virtual DOM: the output-medium tree, the
fresh-identity counter and the operation trace. -/
structure W where
  tree : DNode
  nextId : Nat
  ops : List DomOp

/-! ## remove and move (`src/shmeact.ts` lines 521-579)

These recurse over the virtual-DOM subtree only, so they are structurally
recursive.  `removeNode` returns the total number of real-DOM removals it
performed at its propagation boundary: the source calls
`updateParentsDomNodeCount(element.parent, -1)` once per non-skipped
`dom.remove()`, so this total is exactly the delta applied to every non-Host
ancestor.  Ref-prop nulling and effect teardowns do not exist for pure
environment components and the claims' prop model, so they do not appear. -/

mutual

/-- `remove(element, skipDomRemoval)`: children first (Host children always
skip real removal), then the node's own real-DOM node when not skipped, then
a component's rendered subtree. -/
def removeNode : VNode → Bool → W → W × Int
  | .text u _ _, skip, w =>
    if skip then (w, 0)
    else (⟨(removeIn u w.tree).1, w.nextId, w.ops ++ [.removeOp u]⟩, 1)
  | .elem u _ _ kids _, skip, w =>
    let r := removeList kids true w
    if skip then (r.1, 0)
    else (⟨(removeIn u r.1.tree).1, r.1.nextId, r.1.ops ++ [.removeOp u]⟩, 1)
  | .arr _ kids _, skip, w => removeList kids skip w
  | .comp _ _ _ _ rendered _, skip, w =>
    match rendered with
    | some r => removeNode r skip w
    | none => (w, 0)

def removeList : List VNode → Bool → W → W × Int
  | [], _, w => (w, 0)
  | n :: rest, skip, w =>
    let r1 := removeNode n skip w
    let r2 := removeList rest skip r1.1
    (r2.1, r1.2 + r2.2)

end

mutual

/-- `move(element, domParent, offset)`: relocate the underlying real nodes,
returning how many were moved. -/
def moveVNode : VNode → Nat → Int → W → Option (W × Int)
  | .elem u _ _ _ _, p, off, w =>
    match moveDomNode u p off w.tree with
    | some t2 => some (⟨t2, w.nextId, w.ops ++ [.moveOp u p off]⟩, 1)
    | none => none
  | .text u _ _, p, off, w =>
    match moveDomNode u p off w.tree with
    | some t2 => some (⟨t2, w.nextId, w.ops ++ [.moveOp u p off]⟩, 1)
    | none => none
  | .comp _ _ _ _ rendered _, p, off, w =>
    match rendered with
    | some r => moveVNode r p off w
    | none => some (w, 0)
  | .arr _ kids _, p, off, w => moveVList kids p off 0 w

def moveVList : List VNode → Nat → Int → Int → W → Option (W × Int)
  | [], _, _, moved, w => some (w, moved)
  | k :: rest, p, off, moved, w =>
    match moveVNode k p (off + moved) w with
    | some r => moveVList rest p off (moved + r.2) r.1
    | none => none

end

/-! ## List helpers mirroring the JS array operations in `updateChildren` -/

/-- JS `arr.splice(i, 0, a)`: insert at `i`, clamped to the length. -/
def spliceInsert (l : List VNode) (i : Nat) (a : VNode) : List VNode :=
  l.take i ++ a :: l.drop i

/-- JS `arr.splice(i, 1)`: remove the element at `i` (no-op past the end). -/
def spliceRemove (l : List VNode) (i : Nat) : List VNode :=
  l.take i ++ l.drop (i + 1)

/-- Replace the element at `i` (the source mutates the node in place, so the
list cell keeps pointing at the updated node). -/
def listSetAt (l : List VNode) (i : Nat) (a : VNode) : List VNode :=
  l.set i a

/-- Sum of `domNodesCount` of the nodes before uid `u` (all of them when `u`
is not in the list) — the sibling scan of the location walk. -/
def prefixCount (u : Nat) : List VNode → Int
  | [] => 0
  | n :: rest => if n.uid = u then 0 else n.count + prefixCount u rest

/-- The post-loop sweep of `updateChildren`: `for (const c of childNodes) if
(!reconciled.has(c)) { remove(c); childNodes.splice(childNodes.indexOf(c), 1) }`.
A JS `for..of` iterator holds a cursor that is not adjusted when the array is
spliced under it, so right after a removal the element that slides into the
removed slot is skipped (kept, unexamined); that cursor behaviour is exactly
the structural recursion below.  Returns (new children, world, total removal
delta). -/
def removeUnrec (reconciled : List Nat) : List VNode → W → List VNode × W × Int
  | [], w => ([], w, 0)
  | c :: tail, w =>
    if reconciled.contains c.uid then
      let r := removeUnrec reconciled tail w
      (c :: r.1, r.2.1, r.2.2)
    else
      let rw := removeNode c false w
      match tail with
      | [] => ([], rw.1, rw.2)
      | d :: tail2 =>
        let r := removeUnrec reconciled tail2 rw.1
        (d :: r.1, r.2.1, rw.2 + r.2.2)

/-- The render behaviour of component functions: given the component id, the
props and the children spec (`component({...props, children})`), produce the
returned element spec (`?? null` coercion included — a component returning
nothing is `Spec.nil`). -/
def Env : Type := Nat → Option Props → Option (List Spec) → Spec

/-! ## The reconciler (`create` / `update` / `updateChildren` /
`renderComponentElement`, `src/shmeact.ts` lines 237-443 and 638-697)

The functions are mutually recursive through component re-rendering, so they
carry a fuel counter that strictly decreases on every call; `none` means fuel
ran out (never hit at the concrete fuels the theorems use).

Location arguments: the source recomputes an element's real-DOM location with
the parent-pointer walk `getDomParentAndOffset` in two places (array
reconciliation, and `renderComponentElement` when no location or a zero
offset is passed in); the pure embedding has no parent pointers, so the
caller — who knows where the element lives — passes the location down.  The
walk itself is embedded and analysed separately below (`gdpo`); it disagrees
with the true location on nested structures, which is recorded as a code
defect, and none of the reconciler theorems in this file depend on locations
at the nesting depths where the two differ. -/

/-- JS `String(x)` of a spec assigned into a Text node's value during the
`isStringElement` update branch.  Only text specs reach it under `canUpdate`'s
intended use; the other kinds get a canonical coerced string (their exact JS
rendering is irrelevant to every claim). -/
def specCoerceVal : Spec → Val
  | .text v => v
  | .dom _ _ _ => .str "[object Object]"
  | .comp _ _ _ => .str "[object Object]"
  | .arr _ => .str "(array)"
  | .nil => .str "null"

mutual

/-- `create(elementSpec, parent, domParent, offset)`: build a fresh node,
attach its real nodes, and return it together with the
`updateParentsDomNodeCount(parent, +1)` total that crosses its boundary. -/
def create : Nat → Env → Spec → Nat → Int → W → Option (VNode × Int × W)
  | 0, _, _, _, _, _ => none
  | fuel + 1, env, spec, domParent, offset, w =>
    match spec with
    | .dom tag props children =>
      let id := w.nextId
      let w1 : W := ⟨w.tree, id + 1, w.ops ++ [.createEl id]⟩
      match attachNew (.el id tag []) domParent offset w1.tree with
      | none => none
      | some t2 =>
        let w2 : W := ⟨t2, w1.nextId, w1.ops ++ [.attach id domParent offset]⟩
        match createDomKids fuel env (children.getD []) id 0 [] w2 with
        | none => none
        | some r =>
          let w4 : W := match props with
            | some _ => ⟨r.2.tree, r.2.nextId, r.2.ops ++ [.setAttrs id]⟩
            | none => r.2
          some (.elem id tag props r.1 1, 1, w4)
    | .comp fn props children =>
      let u := w.nextId
      renderComponent fuel env u fn props children none 0 domParent offset
        ⟨w.tree, u + 1, w.ops⟩
    | .arr items =>
      let u := w.nextId
      match createArrItems fuel env items domParent offset [] 0
          ⟨w.tree, u + 1, w.ops⟩ with
      | none => none
      | some r => some (.arr u r.1 r.2.1, r.2.1, r.2.2)
    | .text v =>
      let id := w.nextId
      let w1 : W := ⟨w.tree, id + 1, w.ops ++ [.createText id]⟩
      match attachNew (.tx id (valString v)) domParent offset w1.tree with
      | none => none
      | some t2 =>
        some (.text id v 1, 1,
          ⟨t2, w1.nextId, w1.ops ++ [.attach id domParent offset]⟩)
    | .nil =>
      -- typed `NonNullable` in the source: callers always guard; the untyped
      -- JS fallthrough would coerce to the text node "null"
      let id := w.nextId
      let w1 : W := ⟨w.tree, id + 1, w.ops ++ [.createText id]⟩
      match attachNew (.tx id "null") domParent offset w1.tree with
      | none => none
      | some t2 =>
        some (.text id (.str "null") 1, 1,
          ⟨t2, w1.nextId, w1.ops ++ [.attach id domParent offset]⟩)
termination_by structural fuel => fuel

/-- The child loop of `create`'s DOM branch: skip nulls, create each child
under the new element, advancing the offset by the child's `domNodesCount`
field. -/
def createDomKids : Nat → Env → List Spec → Nat → Int → List VNode → W →
    Option (List VNode × W)
  | 0, _, _, _, _, _, _ => none
  | fuel + 1, env, specs, parentId, childOffset, acc, w =>
    match specs with
    | [] => some (acc, w)
    | s :: rest =>
      match s with
      | .nil => createDomKids fuel env rest parentId childOffset acc w
      | _ =>
        match create fuel env s parentId childOffset w with
        | none => none
        | some r =>
          createDomKids fuel env rest parentId (childOffset + r.1.count)
            (acc ++ [r.1]) r.2.2
termination_by structural fuel => fuel

/-- The entry loop of `create`'s array branch: skip nulls, create each entry
at `offset + rendered.domNodesCount`; the running count is the accumulated
crossing deltas, exactly how the source's `rendered.domNodesCount` grows
through `updateParentsDomNodeCount`. -/
def createArrItems : Nat → Env → List Spec → Nat → Int → List VNode → Int →
    W → Option (List VNode × Int × W)
  | 0, _, _, _, _, _, _, _ => none
  | fuel + 1, env, specs, domParent, offset, acc, accCount, w =>
    match specs with
    | [] => some (acc, accCount, w)
    | s :: rest =>
      match s with
      | .nil => createArrItems fuel env rest domParent offset acc accCount w
      | _ =>
        match create fuel env s domParent (offset + accCount) w with
        | none => none
        | some r =>
          createArrItems fuel env rest domParent offset (acc ++ [r.1])
            (accCount + r.2.1) r.2.2
termination_by structural fuel => fuel

/-- `renderComponentElement(element, domParent, offset)`: run the component
function, then reconcile the result against `element.rendered` with
`canUpdate` / `update` / `remove` / `create`.  Effect queues stay empty with
pure environment components.  Returns the updated component node and the
crossing delta. -/
def renderComponent : Nat → Env → Nat → Nat → Option Props →
    Option (List Spec) → Option VNode → Int → Nat → Int → W →
    Option (VNode × Int × W)
  | 0, _, _, _, _, _, _, _, _, _, _ => none
  | fuel + 1, env, u, fn, props, children, oldRendered, oldCount, domParent,
      offset, w =>
    let renderResult := env fn props children
    if canUpdate oldRendered renderResult then
      match oldRendered with
      | some ex =>
        match update fuel env ex renderResult domParent offset w with
        | none => none
        | some r =>
          some (.comp u fn props children (some r.1) (oldCount + r.2.1),
            r.2.1, r.2.2)
      | none => none
    else
      let rem : W × Int := match oldRendered with
        | some ex => removeNode ex false w
        | none => (w, 0)
      match renderResult with
      | .nil =>
        some (.comp u fn props children none (oldCount - rem.2), 0 - rem.2,
          rem.1)
      | _ =>
        match create fuel env renderResult domParent offset rem.1 with
        | none => none
        | some r =>
          some (.comp u fn props children (some r.1)
            (oldCount - rem.2 + r.2.1), r.2.1 - rem.2, r.2.2)
termination_by structural fuel => fuel

/-- `update(existing, updated)`: in-place update.  The Text branch is checked
first and accepts any spec (coercing it); component and DOM branches require
the matching spec kind; a non-matching pair falls off the `if/else` chain and
does nothing.  Returns the updated node and the crossing delta. -/
def update : Nat → Env → VNode → Spec → Nat → Int → W →
    Option (VNode × Int × W)
  | 0, _, _, _, _, _, _ => none
  | fuel + 1, env, existing, spec, domParent, offset, w =>
    match existing with
    | .text u _ cnt =>
      match setTextAt u (valString (specCoerceVal spec)) w.tree with
      | none => none
      | some t2 =>
        some (.text u (specCoerceVal spec) cnt, 0,
          ⟨t2, w.nextId, w.ops ++ [.setText u (valString (specCoerceVal spec))]⟩)
    | .comp u fn _ _ rendered cnt =>
      match spec with
      | .comp _ props2 children2 =>
        -- existing.props / existing.children are overwritten, then
        -- re-rendered; existing.component is left as is (canUpdate
        -- guarantees equality)
        renderComponent fuel env u fn props2 children2 rendered cnt
          domParent offset w
      | _ => some (existing, 0, w)
    | .elem u tag _ kids cnt =>
      match spec with
      | .dom _ props2 children2 =>
        match updateChildren fuel env kids (children2.getD []) u 0 w with
        | none => none
        | some r =>
          -- internal deltas stop at a Host node: crossing delta 0
          some (.elem u tag props2 r.1 cnt, 0,
            ⟨r.2.2.tree, r.2.2.nextId, r.2.2.ops ++ [.setAttrs u]⟩)
      | _ => some (existing, 0, w)
    | .arr u kids cnt =>
      match spec with
      | .arr items =>
        match updateChildren fuel env kids items domParent offset w with
        | none => none
        | some r => some (.arr u r.1 (cnt + r.2.1), r.2.1, r.2.2)
      | _ => some (existing, 0, w)
termination_by structural fuel => fuel

/-- `updateChildren(element, updatedChildren)`: set up the reconciliation
loop.  `domParent`/`offset` are the element's content location (the element's
own node and `0` for a Host element; the caller-known location for an
array). -/
def updateChildren : Nat → Env → List VNode → List Spec → Nat → Int → W →
    Option (List VNode × Int × W)
  | 0, _, _, _, _, _, _ => none
  | fuel + 1, env, kids, specs, domParent, offset, w =>
    updateChildrenLoop fuel env kids specs 0 0 [] domParent offset offset 0 w
termination_by structural fuel => fuel

/-- The body of the reconciliation loop: null specs are counted and skipped
(`newIndex -= nulls`); otherwise match via `findMatching`, update and move,
or create and splice in; afterwards sweep unreconciled children.  `base` is
the offset the loop started with (used for the location of an updated child,
which the source recovers with the parent walk), `offset` the running
insertion offset, `delta` the accumulated crossing delta. -/
def updateChildrenLoop : Nat → Env → List VNode → List Spec → Nat → Nat →
    List Nat → Nat → Int → Int → Int → W → Option (List VNode × Int × W)
  | 0, _, _, _, _, _, _, _, _, _, _, _ => none
  | fuel + 1, env, kids, rest, idx, nulls, reconciled, domParent, base,
      offset, delta, w =>
    match rest with
    | [] =>
      let r := removeUnrec reconciled kids w
      some (r.1, delta - r.2.2, r.2.1)
    | s :: rest2 =>
      match s with
      | .nil =>
        updateChildrenLoop fuel env kids rest2 (idx + 1) (nulls + 1)
          reconciled domParent base offset delta w
      | _ =>
        let newIndex := idx - nulls
        match findMatching s kids reconciled with
        | none =>
          match create fuel env s domParent offset w with
          | none => none
          | some r =>
            updateChildrenLoop fuel env (spliceInsert kids newIndex r.1)
              rest2 (idx + 1) nulls (reconciled ++ [r.1.uid]) domParent base
              (offset + r.1.count) (delta + r.2.1) r.2.2
        | some fnd =>
          let oldIndex := fnd.1
          let ex := fnd.2
          match update fuel env ex s domParent
              (base + sumCounts (kids.take oldIndex)) w with
          | none => none
          | some r =>
            let ex2 := r.1
            let kids2 := listSetAt kids oldIndex ex2
            if oldIndex = newIndex then
              updateChildrenLoop fuel env kids2 rest2 (idx + 1) nulls
                (reconciled ++ [ex.uid]) domParent base (offset + ex2.count)
                (delta + r.2.1) r.2.2
            else
              match moveVNode ex2 domParent offset r.2.2 with
              | none => none
              | some mv =>
                updateChildrenLoop fuel env
                  (spliceInsert (spliceRemove kids2 oldIndex) newIndex ex2)
                  rest2 (idx + 1) nulls (reconciled ++ [ex.uid]) domParent
                  base (offset + ex2.count) (delta + r.2.1) mv.1


termination_by structural fuel => fuel

end

/-! ## The root handle (`createRoot`, `src/shmeact.ts` lines 162-195) -/

/-- The root of the virtual DOM: the output container (handle `0`, cleared by
`replaceChildren()`) plus the rendered tree. -/
structure RootEl where
  rendered : Option VNode
  w : W

/-- A freshly created root: empty container, identity counter at 1. -/
def mountRoot : RootEl := ⟨none, ⟨.el 0 "root" [], 1, []⟩⟩

/-- The `render(spec)` closure of the root handle: `canUpdate` gates between
in-place update and remove-then-create.  Note: in the remove branch the
source only reassigns `rootNode.rendered` when the new spec is non-null. -/
def rootRender (fuel : Nat) (env : Env) (spec : Spec) (r : RootEl) :
    Option RootEl :=
  if canUpdate r.rendered spec then
    match r.rendered with
    | some ex =>
      match update fuel env ex spec 0 0 r.w with
      | none => none
      | some res => some ⟨some res.1, res.2.2⟩
    | none => none
  else
    let rem : W × Int := match r.rendered with
      | some ex => removeNode ex false r.w
      | none => (r.w, 0)
    match spec with
    | .nil => some ⟨r.rendered, rem.1⟩
    | _ =>
      match create fuel env spec 0 0 rem.1 with
      | none => none
      | some res => some ⟨some res.1, res.2.2⟩

/-- The `unmount()` closure of the root handle. -/
def rootUnmount (r : RootEl) : RootEl :=
  match r.rendered with
  | some ex => ⟨none, (removeNode ex false r.w).1⟩
  | none => ⟨none, r.w⟩

/-! ## The location walk (`getDomParentAndOffset`, `src/shmeact.ts` lines
596-616, and `ShmeactElement.getDomLocation`, `src/index.tsx`)

Both walk from a node up its parent chain.  Parent pointers are represented
by the list of ancestors, innermost first; each ancestor carries its kind
(with the real-DOM handle for Host/root), its own identity and its
`childNodes`.  The crucial detail of the `shmeact.ts` loop is that
`currentElement` is initialised to the original element and never reassigned,
so the sibling scan at every level searches for that original element. -/

/-- Ancestor kind for the walk: Host element (with its DOM handle), array,
component, or the root (with its DOM handle). -/
inductive AncKind where
  | adom (handle : Nat)
  | aarr
  | acomp
  | aroot (handle : Nat)

/-- One ancestor on the parent chain. -/
structure Anc where
  kind : AncKind
  uid : Nat
  kids : List VNode

/-- One `do`-body iteration plus the `while` check of
`getDomParentAndOffset`: scan siblings if the current parent is Host/array
(the scan looks for the ORIGINAL element's identity `elUid`), exit returning
the current parent's handle if it is Host/root, otherwise step to the next
ancestor and exit on it without scanning if it is Host/root. -/
def gdpoLoop (elUid : Nat) (offset : Int) : Anc → List Anc → Option (Nat × Int)
  | a, up =>
    let offset := offset + (match a.kind with
      | .adom _ => prefixCount elUid a.kids
      | .aarr => prefixCount elUid a.kids
      | _ => 0)
    match a.kind with
    | .adom h => some (h, offset)
    | .aroot h => some (h, offset)
    | _ =>
      match up with
      | [] => none
      | b :: up2 =>
        match b.kind with
        | .adom h => some (h, offset)
        | .aroot h => some (h, offset)
        | _ => gdpoLoop elUid offset b up2

/-- `getDomParentAndOffset(element)` from `src/shmeact.ts`: `element.parent!`
is the head of the ancestor list (JS crashes on a missing parent, hence
`none`). -/
def gdpo (elUid : Nat) (ancs : List Anc) : Option (Nat × Int) :=
  match ancs with
  | [] => none
  | p :: up => gdpoLoop elUid 0 p up

/-- `ShmeactElement.getDomLocation()` from `src/index.tsx`: sum the counts of
the siblings before `this` (only parents with child lists have siblings),
stop at a Host/root parent, otherwise recurse on the parent — whose own
identity is used for the next sibling scan. -/
def getDomLocation (elUid : Nat) : List Anc → Option (Nat × Int)
  | [] => none
  | a :: up =>
    let cur := match a.kind with
      | .adom _ => prefixCount elUid a.kids
      | .aarr => prefixCount elUid a.kids
      | _ => 0
    match a.kind with
    | .adom h => some (h, cur)
    | .aroot h => some (h, cur)
    | _ =>
      match getDomLocation a.uid up with
      | none => none
      | some r => some (r.1, r.2 + cur)

/-- The offset the claims and the function's own documentation describe: at
every level of the walk, the sum of `realNodeCount` over the siblings
preceding the node being located, accumulated up to the nearest Host/root
ancestor. -/
def claimedOffset (elUid : Nat) : List Anc → Option (Nat × Int)
  | [] => none
  | a :: up =>
    let cur := prefixCount elUid a.kids
    match a.kind with
    | .adom h => some (h, cur)
    | .aroot h => some (h, cur)
    | _ =>
      match claimedOffset a.uid up with
      | none => none
      | some r => some (r.1, r.2 + cur)

/-! ## The counts invariant (claim C4)

`domNodesCount` bookkeeping: Host/Text nodes always exactly 1, array and
component nodes the sum over their rendered children. -/

mutual

/-- Local-and-recursive correctness of `domNodesCount` over a subtree. -/
def countsOkB : VNode → Bool
  | .text _ _ c => c == 1
  | .elem _ _ _ kids c => c == 1 && countsOkList kids
  | .arr _ kids c => c == sumCounts kids && countsOkList kids
  | .comp _ _ _ _ rendered c =>
    match rendered with
    | none => c == 0
    | some r => c == r.count && countsOkB r

def countsOkList : List VNode → Bool
  | [] => true
  | k :: rest => countsOkB k && countsOkList rest

end

/-! ## The hook state engine (`src/shmeact.ts` lines 700-866)

`useState` for one state slot of one component, exactly as the source: the
slot array is initialised on first call, the setter closure captures
`currentValue = element.state[index]` at render time, and invoking the setter
writes the slot and synchronously re-renders the component (which creates a
fresh setter capturing the new value). -/

/-- The setter closure: it holds the value captured when it was created. -/
structure Setter where
  captured : Val
deriving DecidableEq, Repr

/-- Argument to a setter: a literal replacement or an updater function. -/
inductive SetArg where
  | lit (v : Val)
  | upd (f : Val → Val)

/-- State of a single-state-slot component after a render: the slot array,
the value the render read (and displayed), and the setter it produced. -/
structure HookSim where
  state : List Val
  rendered : Val
  setter : Setter

/-- One render of the component: `useState(initial)` — initialise slot 0 if
the state array is too short, read `element.state[0]`, capture it in the
setter. -/
def renderComp1 (initial : Val) (st : List Val) : HookSim :=
  match st with
  | [] => ⟨[initial], initial, ⟨initial⟩⟩
  | v :: rest => ⟨v :: rest, v, ⟨v⟩⟩

/-- JS `element.state[0] = newValue` (the array is extended when empty). -/
def jsStateSet0 (st : List Val) (newValue : Val) : List Val :=
  match st with
  | [] => [newValue]
  | _ :: rest => newValue :: rest

/-- Invoking a setter (`setStateFunction`): an updater argument is applied to
the value the setter captured, the slot is written, and the component
synchronously re-renders before the call returns. -/
def setterCall (initial : Val) (s : Setter) (arg : SetArg) (st : List Val) :
    HookSim :=
  let newValue := match arg with
    | .lit v => v
    | .upd f => f s.captured
  renderComp1 initial (jsStateSet0 st newValue)

/-- Fire a sequence of setter calls, each using the setter produced by the
most recent render. -/
def fireLatest (initial : Val) (sim : HookSim) (args : List SetArg) : HookSim :=
  args.foldl (fun s arg => setterCall initial s.setter arg s.state) sim

/-- `v => v + 1` on number values. -/
def incVal : Val → Val
  | .num n => .num (n + 1)
  | v => v

/-- Fire the SAME setter instance twice with the `+1` updater: both calls
apply the updater to the one value that instance captured. -/
def twoSameSetterFires (initial : Val) (st : List Val) : HookSim :=
  let sim0 := renderComp1 initial st
  let h1 := setterCall initial sim0.setter (.upd incVal) sim0.state
  setterCall initial sim0.setter (.upd incVal) h1.state

/-- `depsChanged(oldDeps, newDeps)` from `src/shmeact.ts` lines 843-849. -/
def depsChanged (oldDeps newDeps : Option (List Val)) : Bool :=
  match oldDeps, newDeps with
  | none, _ => true
  | _, none => true
  | some o, some n =>
    if o.length ≠ n.length then true
    else (o.zip n).any fun p => p.1 != p.2

/-- A stored effect slot: the callback (identified by a `Nat` id), its deps,
and the teardown left by its previous run (also by id). -/
structure EffectRec where
  eff : Nat
  deps : Option (List Val)
  teardown : Option Nat
deriving DecidableEq, Repr

/-- JS `effectArray[index] = entry`. -/
def jsSetAt (l : List EffectRec) (i : Nat) (a : EffectRec) : List EffectRec :=
  l.take i ++ [a] ++ l.drop (i + 1)

/-- `useEffectShared` (`src/shmeact.ts` lines 744-762) for one hook call at
slot `i`: a missing entry is stored and enqueued; an existing entry is
replaced and re-enqueued iff `depsChanged`, keeping its teardown; otherwise
nothing happens.  Returns (new effect array, new queue). -/
def useEffectShared (effectArray : List EffectRec) (i : Nat)
    (queue : List EffectRec) (eff : Nat) (deps : Option (List Val)) :
    List EffectRec × List EffectRec :=
  match effectArray.get? i with
  | none =>
    let entry : EffectRec := ⟨eff, deps, none⟩
    (jsSetAt effectArray i entry, queue ++ [entry])
  | some entry =>
    if depsChanged entry.deps deps then
      let entry2 : EffectRec := ⟨eff, deps, entry.teardown⟩
      (jsSetAt effectArray i entry2, queue ++ [entry2])
    else (effectArray, queue)

/-! ## Effect execution (`runEffect`, `src/shmeact.ts` lines 851-866)

A queued effect's callback and its stored teardown are fallible: their
behaviour is an `Except`, and `runEffect` handles the error case itself
(`try/catch` + `console.error`), so running a queue is total and every queued
effect is attempted. -/

/-- What one teardown invocation does: returns or throws. -/
def TdBeh : Type := Except Unit Unit

/-- What one effect invocation does: throws, or returns an optional teardown. -/
def EffBeh : Type := Except Unit (Option TdBeh)

/-- An enqueued effect at execution time. -/
structure REffect where
  run : EffBeh
  teardown : Option TdBeh

/-- Observable events of effect execution. -/
inductive EffEvent where
  | ranEffect
  | caughtEffectError
  | caughtTeardownError
deriving DecidableEq, Repr

/-- `runEffect(effectDef)`: run the previous teardown inside `try/catch`
(logging a failure), then run the effect inside `try/catch`; on success store
the returned teardown, on a caught failure leave the stored teardown as it
was. -/
def runEffect (e : REffect) : REffect × List EffEvent :=
  let tlog : List EffEvent := match e.teardown with
    | none => []
    | some (Except.ok _) => []
    | some (Except.error _) => [.caughtTeardownError]
  match e.run with
  | Except.error _ => (⟨e.run, e.teardown⟩, tlog ++ [.caughtEffectError])
  | Except.ok td => (⟨e.run, td⟩, tlog ++ [.ranEffect])

/-- `myEffectQueue.forEach(runEffect)`. -/
def runEffectQueue : List REffect → List REffect × List EffEvent
  | [] => ([], [])
  | e :: rest =>
    let r := runEffect e
    let rr := runEffectQueue rest
    (r.1 :: rr.1, r.2 ++ rr.2)

/-! ## Definitions supporting the individual claims -/

/-- The adoption predicate exactly as claim C2 / spec §4.2 words it: same
variant, and for Component/Host nodes also the same underlying function/tag
and equal key, both missing counting as equal. -/
def canAdoptClaimed (e : VNode) (u : Spec) : Bool :=
  match e, u with
  | .elem _ t p _ _, .dom t2 p2 _ => t = t2 && keyOf p = keyOf p2
  | .comp _ f p _ _ _, .comp f2 p2 _ => f = f2 && keyOf p = keyOf p2
  | .arr _ _ _, .arr _ => true
  | .text _ _ _, .text _ => true
  | _, _ => false

/-- What `canUpdate` actually implements (the amended claim C2): non-null
spec, and same variant with same tag/function (key never consulted) — except
that an existing Text node adopts any non-null spec. -/
def canUpdateAmended (e : VNode) (u : Spec) : Bool :=
  (match u with
   | Spec.nil => false
   | _ => true) &&
  (e.isText ||
   (match e, u with
    | .elem _ t _ _ _, .dom t2 _ _ => t = t2
    | .comp _ f _ _ _ _, .comp f2 _ _ => f = f2
    | .arr _ _ _, .arr _ => true
    | _, _ => false))

/-- Replace a node's key prop (for stating key-insensitivity of `canUpdate`). -/
def VNode.withKey : VNode → Val → VNode
  | .comp u f _ ch r c, k => .comp u f (some ⟨k⟩) ch r c
  | .elem u t _ ks c, k => .elem u t (some ⟨k⟩) ks c
  | .text u v c, _ => .text u v c
  | .arr u ks c, _ => .arr u ks c

/-- Replace a spec's key prop. -/
def Spec.withKey : Spec → Val → Spec
  | .comp f _ ch, k => .comp f (some ⟨k⟩) ch
  | .dom t _ ch, k => .dom t (some ⟨k⟩) ch
  | .text v, _ => .text v
  | .arr l, _ => .arr l
  | .nil, _ => .nil

/-- A keyed childless Host spec (the `<li key={k}/>` of claim C1). -/
def liSpec (tag : String) (k : Val) : Spec :=
  .dom tag (some ⟨k⟩) (some [])

/-- A Host spec whose children are keyed Host specs of one tag. -/
def listSpec (ptag ctag : String) (ks : List Val) : Spec :=
  .dom ptag none (some (ks.map (liSpec ctag)))

/-- Output-medium node creations in the trace. -/
def isCreationOp : DomOp → Bool
  | .createEl _ => true
  | .createText _ => true
  | _ => false

/-- Output-medium node removals in the trace. -/
def isRemovalOp : DomOp → Bool
  | .removeOp _ => true
  | _ => false

/-- The ids of the children of element `p` in the output tree. -/
def kidIdsUnder (p : Nat) (t : DNode) : Option (List Nat) :=
  (kidsOf p t).map (fun l => l.map DNode.nodeId)

/-- The (id, text) pairs of the children of element `p`, for reading off the
positions of rendered text children. -/
def textsUnder (p : Nat) (t : DNode) : Option (List (Nat × String)) :=
  (kidsOf p t).map (fun l => l.map (fun n =>
    match n with
    | .el i _ _ => (i, "")
    | .tx i s => (i, s)))

/-- Text specs interleaved with nulls, for claim C5. -/
def specOfOpt : Option Val → Spec
  | none => .nil
  | some v => .text v

/-- The text value carried by a Text node. -/
def VNode.textVal : VNode → Option Val
  | .text _ v _ => some v
  | _ => none

/-- Root states reachable from a freshly mounted root by any sequence of
`render` (with any spec, any fuel) and `unmount` calls — every reconciler
operation (`create`, `update`, `move`, `remove`) is reached through these
entry points. -/
inductive Reaches (env : Env) : RootEl → Prop where
  | mounted : Reaches env mountRoot
  | rendered (r r2 : RootEl) (fuel : Nat) (spec : Spec) : Reaches env r →
      rootRender fuel env spec r = some r2 → Reaches env r2
  | unmounted (r : RootEl) : Reaches env r → Reaches env (rootUnmount r)

/-- The inductive payload for the counts invariant (claim C4), one conjunct
per reconciler function: every operation, run with any fuel, yields
count-consistent nodes, and the crossing delta it reports equals the change
it causes in its subtree's `domNodesCount` contribution. -/
def C4P (fuel : Nat) : Prop :=
  (∀ (env : Env) (spec : Spec) (p : Nat) (o : Int) (w : W)
      (r : VNode × Int × W),
      create fuel env spec p o w = some r →
      countsOkB r.1 = true ∧ r.2.1 = r.1.count)
  ∧ (∀ (env : Env) (specs : List Spec) (pid : Nat) (co : Int)
      (acc : List VNode) (w : W) (r : List VNode × W),
      countsOkList acc = true →
      createDomKids fuel env specs pid co acc w = some r →
      countsOkList r.1 = true)
  ∧ (∀ (env : Env) (specs : List Spec) (p : Nat) (o : Int) (acc : List VNode)
      (ac : Int) (w : W) (r : List VNode × Int × W),
      countsOkList acc = true → ac = sumCounts acc →
      createArrItems fuel env specs p o acc ac w = some r →
      countsOkList r.1 = true ∧ r.2.1 = sumCounts r.1)
  ∧ (∀ (env : Env) (u fn : Nat) (props : Option Props)
      (children : Option (List Spec)) (oldR : Option VNode) (oldC : Int)
      (p : Nat) (o : Int) (w : W) (r : VNode × Int × W),
      (match oldR with
       | none => oldC = 0
       | some r0 => countsOkB r0 = true ∧ oldC = r0.count) →
      renderComponent fuel env u fn props children oldR oldC p o w = some r →
      countsOkB r.1 = true ∧ r.2.1 = r.1.count - oldC)
  ∧ (∀ (env : Env) (ex : VNode) (spec : Spec) (p : Nat) (o : Int) (w : W)
      (r : VNode × Int × W),
      countsOkB ex = true →
      update fuel env ex spec p o w = some r →
      countsOkB r.1 = true ∧ r.2.1 = r.1.count - ex.count)
  ∧ (∀ (env : Env) (kids : List VNode) (specs : List Spec) (p : Nat)
      (o : Int) (w : W) (r : List VNode × Int × W),
      countsOkList kids = true →
      updateChildren fuel env kids specs p o w = some r →
      countsOkList r.1 = true ∧ r.2.1 = sumCounts r.1 - sumCounts kids)
  ∧ (∀ (env : Env) (kids : List VNode) (rest : List Spec) (idx nulls : Nat)
      (recon : List Nat) (p : Nat) (b o δ : Int) (w : W)
      (r : List VNode × Int × W),
      countsOkList kids = true →
      updateChildrenLoop fuel env kids rest idx nulls recon p b o δ w
        = some r →
      countsOkList r.1 = true ∧ r.2.1 - δ = sumCounts r.1 - sumCounts kids)

/-! ## Theorems -/

/-- C2 counterexample: `canUpdate` (the `canAdopt` of `src/shmeact.ts`)
returns `true` for a Host node and a Host spec with the SAME tag but
DIFFERENT keys, and also for a Text node against a Host spec (different
variant) — in both cases the claimed adoption predicate is `false`. -/
theorem C2_counterexample :
    canUpdate (some (VNode.elem 1 "div" (some ⟨Val.num 1⟩) [] 1))
        (Spec.dom "div" (some ⟨Val.num 2⟩) none) = true
    ∧ canAdoptClaimed (VNode.elem 1 "div" (some ⟨Val.num 1⟩) [] 1)
        (Spec.dom "div" (some ⟨Val.num 2⟩) none) = false
    ∧ canUpdate (some (VNode.text 1 (Val.str "t") 1))
        (Spec.dom "div" none none) = true
    ∧ canAdoptClaimed (VNode.text 1 (Val.str "t") 1)
        (Spec.dom "div" none none) = false := by
  refine ⟨by decide, by decide, by decide, by decide⟩

/-- C2 amended: `canUpdate` tests the variant and the underlying tag/function
only — never the key (key matching lives in `findMatching`, and in
`canUpdateWith` of `src/index.tsx`) — and an existing Text node can adopt any
non-null spec regardless of its variant. -/
theorem C2_canUpdate_amended :
    (∀ (e : VNode) (u : Spec), canUpdate (some e) u = canUpdateAmended e u)
    ∧ (∀ (e : VNode) (u : Spec) (k1 k2 : Val),
        canUpdate (some (e.withKey k1)) (u.withKey k2) = canUpdate (some e) u) := by
  constructor
  · intro e u
    cases e <;> cases u <;>
      simp [canUpdate, canUpdateAmended, VNode.isText]
  · intro e u k1 k2
    cases e <;> cases u <;> rfl

/-- C3: on a Text node whose parent is a component sitting AFTER a sibling of
count 1 under a Host parent, `getDomParentAndOffset` (`src/shmeact.ts`)
returns offset 0 — it never adds the preceding siblings of the intermediate
ancestors because `currentElement` is never moved up the chain and the walk
exits on reaching a Host parent without scanning it — while the claimed
offset (and `getDomLocation` of `src/index.tsx`, which implements the claim)
is 1. -/
theorem C3_walk_bug :
    gdpo 3 [⟨.acomp, 2, []⟩,
        ⟨.adom 10, 1, [VNode.text 4 (Val.str "x") 1,
          VNode.comp 2 7 none none (some (VNode.text 3 (Val.str "t") 1)) 1]⟩]
      = some (10, 0)
    ∧ getDomLocation 3 [⟨.acomp, 2, []⟩,
        ⟨.adom 10, 1, [VNode.text 4 (Val.str "x") 1,
          VNode.comp 2 7 none none (some (VNode.text 3 (Val.str "t") 1)) 1]⟩]
      = some (10, 1)
    ∧ claimedOffset 3 [⟨.acomp, 2, []⟩,
        ⟨.adom 10, 1, [VNode.text 4 (Val.str "x") 1,
          VNode.comp 2 7 none none (some (VNode.text 3 (Val.str "t") 1)) 1]⟩]
      = some (10, 1) := by
  refine ⟨rfl, rfl, rfl⟩

/-- After firing literal setters, the next render reads the last literal
(auxiliary to claim C6). -/
theorem fireLatest_lit_getLast (initial : Val) (vs : List Val) (hvs : vs ≠ []) :
    ∀ sim : HookSim,
      (fireLatest initial sim (vs.map SetArg.lit)).rendered = vs.getLast hvs := by
  induction vs with
  | nil => exact absurd rfl hvs
  | cons v rest ih =>
    intro sim
    cases rest with
    | nil =>
      cases hst : sim.state <;>
        simp [fireLatest, setterCall, jsStateSet0, renderComp1, hst]
    | cons v2 rest2 =>
      have step : fireLatest initial sim ((v :: v2 :: rest2).map SetArg.lit)
          = fireLatest initial
              (setterCall initial sim.setter (SetArg.lit v) sim.state)
              ((v2 :: rest2).map SetArg.lit) := rfl
      rw [step, ih (by simp) _]
      simp [List.getLast]

/-- After `k` updater firings of `v => v + 1`, each through the setter of the
latest render, the slot and the rendered value advance by `k` (auxiliary to
claim C6). -/
theorem fireLatest_upd_add (initial : Val) (k : Nat) :
    ∀ n : Int,
      (fireLatest initial ⟨[Val.num n], Val.num n, ⟨Val.num n⟩⟩
        (List.replicate k (SetArg.upd incVal))).rendered = Val.num (n + k) := by
  induction k with
  | zero => intro n; simp [fireLatest]
  | succ k ih =>
    intro n
    have step : fireLatest initial ⟨[Val.num n], Val.num n, ⟨Val.num n⟩⟩
        (List.replicate (k + 1) (SetArg.upd incVal))
        = fireLatest initial ⟨[Val.num (n + 1)], Val.num (n + 1), ⟨Val.num (n + 1)⟩⟩
            (List.replicate k (SetArg.upd incVal)) := by
      simp [List.replicate_succ, fireLatest, setterCall, jsStateSet0,
        renderComp1, incVal]
    rw [step, ih (n + 1)]
    congr 1
    omega

/-- C6: the state setter accepts literals or updaters, applies an updater to
the value captured when that setter was created, and each invocation writes
the slot and synchronously re-renders; hence after N literal fires the next
render reads the last literal, and after K chained `+1` updater fires from 0
(each through the most recent render's setter) the rendered value is K. -/
theorem C6_useState (initial : Val) (st : List Val) (vs : List Val)
    (hvs : vs ≠ []) (k : Nat) :
    (fireLatest initial (renderComp1 initial st) (vs.map SetArg.lit)).rendered
        = vs.getLast hvs
    ∧ (fireLatest (Val.num 0) (renderComp1 (Val.num 0) [])
        (List.replicate k (SetArg.upd incVal))).rendered = Val.num k := by
  constructor
  · exact fireLatest_lit_getLast initial vs hvs _
  · have h := fireLatest_upd_add (Val.num 0) k 0
    simpa [renderComp1] using h

/-- C6 witness: two literal fires end on the second literal; three chained
updater fires from 0 end on 3. -/
theorem C6_useState_witness :
    ([Val.num 5, Val.num 7] ≠ ([] : List Val))
    ∧ ((fireLatest (Val.num 0) (renderComp1 (Val.num 0) [])
          ([Val.num 5, Val.num 7].map SetArg.lit)).rendered = Val.num 7
      ∧ (fireLatest (Val.num 0) (renderComp1 (Val.num 0) [])
          (List.replicate 3 (SetArg.upd incVal))).rendered = Val.num 3) := by
  refine ⟨by decide, C6_useState (Val.num 0) [] [Val.num 5, Val.num 7] (by decide) 3⟩

/-- Pairwise self-comparison never reports a change (auxiliary to C7). -/
theorem zip_self_any_bne (d : List Val) :
    ((d.zip d).any fun p => p.1 != p.2) = false := by
  induction d with
  | nil => rfl
  | cons v rest ih => simp [List.zip, ih]

/-- C7: on a subsequent render (the effect slot already exists) the effect is
re-enqueued exactly when `depsChanged` holds; missing deps always count as
changed, and element-wise identical deps never do. -/
theorem C7_effect_deps_gating (arrE : List EffectRec) (i : Nat)
    (q : List EffectRec) (eff : Nat) (deps : Option (List Val))
    (entry : EffectRec) (h : arrE.get? i = some entry) :
    ((useEffectShared arrE i q eff deps).2.length = q.length + 1
        ↔ depsChanged entry.deps deps = true)
    ∧ depsChanged entry.deps none = true
    ∧ (∀ d : List Val, depsChanged (some d) (some d) = false) := by
  refine ⟨?_, ?_, ?_⟩
  · rw [useEffectShared, h]
    cases hd : depsChanged entry.deps deps <;> simp [hd]
  · cases entry.deps <;> rfl
  · intro d
    simp [depsChanged, zip_self_any_bne]

/-- C7 witness: a stored effect with deps `[1]` seen again with deps `[2]` is
re-enqueued; the gating equivalence holds at that instance. -/
theorem C7_effect_deps_gating_witness :
    ([(⟨1, some [Val.num 1], none⟩ : EffectRec)].get? 0
        = some (⟨1, some [Val.num 1], none⟩ : EffectRec))
    ∧ (((useEffectShared [⟨1, some [Val.num 1], none⟩] 0 [] 2
          (some [Val.num 2])).2.length = 1
        ↔ depsChanged (some [Val.num 1]) (some [Val.num 2]) = true)
      ∧ depsChanged (some [Val.num 1]) none = true
      ∧ (∀ d : List Val, depsChanged (some d) (some d) = false)) := by
  exact ⟨by decide,
    C7_effect_deps_gating [⟨1, some [Val.num 1], none⟩] 0 [] 2
      (some [Val.num 2]) ⟨1, some [Val.num 1], none⟩ (by decide)⟩

/-- One `runEffect` invocation always records exactly one attempt event for
the effect callback (auxiliary to C8). -/
theorem runEffect_attempt_count (e : REffect) :
    (runEffect e).2.count EffEvent.ranEffect
      + (runEffect e).2.count EffEvent.caughtEffectError = 1 := by
  rcases e with ⟨run, td⟩
  rcases td with _ | td1
  · rcases run with u | td2 <;> simp [runEffect]
  · rcases td1 with u1 | u1 <;> rcases run with u | td2 <;> simp [runEffect]

/-- A throwing effect callback is logged as caught (auxiliary to C8). -/
theorem runEffect_error_mem (e : REffect) (u : Unit)
    (h : e.run = Except.error u) :
    EffEvent.caughtEffectError ∈ (runEffect e).2 := by
  rcases e with ⟨run, td⟩
  cases h
  rcases td with _ | td1
  · simp [runEffect]
  · rcases td1 with u1 | u1 <;> simp [runEffect]

/-- A throwing previous teardown is logged as caught (auxiliary to C8). -/
theorem runEffect_teardown_error_mem (e : REffect) (u : Unit)
    (h : e.teardown = some (Except.error u)) :
    EffEvent.caughtTeardownError ∈ (runEffect e).2 := by
  rcases e with ⟨run, td⟩
  cases h
  rcases run with u2 | td2 <;> simp [runEffect]

/-- C8: running an effect queue is total; every queued effect is attempted
exactly once (a throwing callback or teardown is caught and logged in place),
so failures abort neither the later effects in the queue nor anything
outside it. -/
theorem C8_effect_errors_contained (q : List REffect) :
    (runEffectQueue q).1.length = q.length
    ∧ ((runEffectQueue q).2.count EffEvent.ranEffect
        + (runEffectQueue q).2.count EffEvent.caughtEffectError = q.length)
    ∧ (∀ e ∈ q, ∀ u : Unit, e.run = Except.error u →
        EffEvent.caughtEffectError ∈ (runEffectQueue q).2)
    ∧ (∀ e ∈ q, ∀ u : Unit, e.teardown = some (Except.error u) →
        EffEvent.caughtTeardownError ∈ (runEffectQueue q).2) := by
  induction q with
  | nil => exact ⟨rfl, rfl, by simp, by simp⟩
  | cons e rest ih =>
    obtain ⟨ih1, ih2, ih3, ih4⟩ := ih
    have hq : runEffectQueue (e :: rest)
        = ((runEffect e).1 :: (runEffectQueue rest).1,
           (runEffect e).2 ++ (runEffectQueue rest).2) := rfl
    refine ⟨?_, ?_, ?_, ?_⟩
    · rw [hq]
      simpa using ih1
    · rw [hq]
      simp only [List.count_append, List.length_cons]
      have := runEffect_attempt_count e
      omega
    · intro e2 he2 u hrun
      rw [hq]
      simp only [List.mem_append]
      rcases List.mem_cons.mp he2 with he2 | he2
      · exact Or.inl (by subst he2; exact runEffect_error_mem e2 u hrun)
      · exact Or.inr (ih3 e2 he2 u hrun)
    · intro e2 he2 u htd
      rw [hq]
      simp only [List.mem_append]
      rcases List.mem_cons.mp he2 with he2 | he2
      · exact Or.inl (by subst he2; exact runEffect_teardown_error_mem e2 u htd)
      · exact Or.inr (ih4 e2 he2 u htd)

/-- C9: after mounting a Host spec and then calling `render(null)`, the
output tree is emptied but `rootNode.rendered` still points at the removed
node — the source's remove branch only reassigns `rendered` when the new
spec is non-null (the claim, and `src/index.tsx`, null it out). -/
theorem C9_render_null_keeps_stale_node :
    ((rootRender 10 (fun _ _ _ => Spec.nil) (Spec.dom "div" none (some []))
        mountRoot).bind
      (rootRender 10 (fun _ _ _ => Spec.nil) Spec.nil)).map
      (fun r => (r.rendered.isSome, kidIdsUnder 0 r.w.tree))
    = some (true, some []) := by
  rfl

/-- C10: firing the SAME setter instance twice with the `v => v + 1` updater
applies the updater to the one captured value both times: the slot ends at
`captured + 1`, not `captured + 2`. -/
theorem C10_same_setter_twice (initial : Val) (n : Int) :
    (twoSameSetterFires initial [Val.num n]).state = [Val.num (n + 1)]
    ∧ (twoSameSetterFires initial [Val.num n]).rendered = Val.num (n + 1)
    ∧ Val.num (n + 1) ≠ Val.num (n + 2) := by
  refine ⟨rfl, rfl, ?_⟩
  intro h
  injection h with h2
  omega

/-- The root state after mounting `listSpec pt ct [a,b,c]` (claim C1): Host
handle 1 for the list, handles 2/3/4 for the keyed children. -/
def c1Root1 (pt ct : String) (a b c : Val) : RootEl :=
  ⟨some (.elem 1 pt none [.elem 2 ct (some ⟨a⟩) [] 1, .elem 3 ct (some ⟨b⟩) [] 1,
      .elem 4 ct (some ⟨c⟩) [] 1] 1),
   ⟨.el 0 "root" [.el 1 pt [.el 2 ct [], .el 3 ct [], .el 4 ct []]], 5,
    [.createEl 1, .attach 1 0 0, .createEl 2, .attach 2 1 0, .setAttrs 2,
     .createEl 3, .attach 3 1 1, .setAttrs 3, .createEl 4, .attach 4 1 2, .setAttrs 4]⟩⟩

/-- The root state after re-rendering with the keys reordered to `[c,a,b]`:
the same three handles 2/3/4, reordered; the appended trace is attribute
syncs and one move. -/
def c1Root2 (pt ct : String) (a b c : Val) : RootEl :=
  ⟨some (.elem 1 pt none [.elem 4 ct (some ⟨c⟩) [] 1, .elem 2 ct (some ⟨a⟩) [] 1,
      .elem 3 ct (some ⟨b⟩) [] 1] 1),
   ⟨.el 0 "root" [.el 1 pt [.el 4 ct [], .el 2 ct [], .el 3 ct []]], 5,
    [.createEl 1, .attach 1 0 0, .createEl 2, .attach 2 1 0, .setAttrs 2,
     .createEl 3, .attach 3 1 1, .setAttrs 3, .createEl 4, .attach 4 1 2, .setAttrs 4,
     .setAttrs 4, .moveOp 4 1 0, .setAttrs 2, .setAttrs 3, .setAttrs 1]⟩⟩

set_option maxHeartbeats 1600000 in
/-- C1: mounting a Host list with children of one tag keyed `[a,b,c]` (keys
distinct) and re-rendering it as `[c,a,b]` keeps the same three output
handles (2,3,4), reorders them to the new sequence (4,2,3), and the second
render's trace contains no creation and no removal operations. -/
theorem C1_keyed_reorder (env : Env) (pt ct : String) (a b c : Val)
    (hab : a ≠ b) (hac : a ≠ c) (hbc : b ≠ c) :
    rootRender 20 env (listSpec pt ct [a, b, c]) mountRoot
        = some (c1Root1 pt ct a b c)
    ∧ rootRender 20 env (listSpec pt ct [c, a, b]) (c1Root1 pt ct a b c)
        = some (c1Root2 pt ct a b c)
    ∧ kidIdsUnder 1 (c1Root1 pt ct a b c).w.tree = some [2, 3, 4]
    ∧ kidIdsUnder 1 (c1Root2 pt ct a b c).w.tree = some [4, 2, 3]
    ∧ ((c1Root2 pt ct a b c).w.ops.drop
        (c1Root1 pt ct a b c).w.ops.length).filter isCreationOp = []
    ∧ ((c1Root2 pt ct a b c).w.ops.drop
        (c1Root1 pt ct a b c).w.ops.length).filter isRemovalOp = [] := by
  have hswap : b ≠ a := fun h => hab h.symm
  refine ⟨rfl, ?_, rfl, rfl, rfl, rfl⟩
  simp [rootRender, c1Root1, c1Root2, canUpdate, VNode.isText, update,
    updateChildren, updateChildrenLoop, findMatching, findFrom, keyOf,
    VNode.uid, VNode.count, create, createDomKids, listSetAt, spliceInsert,
    spliceRemove, sumCounts, moveVNode, moveDomNode, removeIn, removeInList,
    DNode.nodeId, updateKidsAt, updateKidsAtList, kidsOf, kidsOfList,
    insertAfterId, attachNew, removeUnrec, listSpec, liSpec, hac, hbc]

/-- C1 witness at tag `ul`/`li` and keys `a`, `b`, `c`. -/
theorem C1_keyed_reorder_witness :
    (Val.str "a" ≠ Val.str "b")
    ∧ (Val.str "a" ≠ Val.str "c")
    ∧ (Val.str "b" ≠ Val.str "c")
    ∧ (rootRender 20 (fun _ _ _ => Spec.nil)
          (listSpec "ul" "li" [Val.str "a", Val.str "b", Val.str "c"]) mountRoot
          = some (c1Root1 "ul" "li" (Val.str "a") (Val.str "b") (Val.str "c"))
      ∧ rootRender 20 (fun _ _ _ => Spec.nil)
          (listSpec "ul" "li" [Val.str "c", Val.str "a", Val.str "b"])
          (c1Root1 "ul" "li" (Val.str "a") (Val.str "b") (Val.str "c"))
          = some (c1Root2 "ul" "li" (Val.str "a") (Val.str "b") (Val.str "c"))
      ∧ kidIdsUnder 1
          (c1Root1 "ul" "li" (Val.str "a") (Val.str "b") (Val.str "c")).w.tree
          = some [2, 3, 4]
      ∧ kidIdsUnder 1
          (c1Root2 "ul" "li" (Val.str "a") (Val.str "b") (Val.str "c")).w.tree
          = some [4, 2, 3]
      ∧ ((c1Root2 "ul" "li" (Val.str "a") (Val.str "b") (Val.str "c")).w.ops.drop
          (c1Root1 "ul" "li" (Val.str "a") (Val.str "b") (Val.str "c")).w.ops.length).filter
            isCreationOp = []
      ∧ ((c1Root2 "ul" "li" (Val.str "a") (Val.str "b") (Val.str "c")).w.ops.drop
          (c1Root1 "ul" "li" (Val.str "a") (Val.str "b") (Val.str "c")).w.ops.length).filter
            isRemovalOp = []) :=
  ⟨by decide, by decide, by decide,
   C1_keyed_reorder (fun _ _ _ => Spec.nil) "ul" "li" (Val.str "a")
     (Val.str "b") (Val.str "c") (by decide) (by decide) (by decide)⟩

/-- Insertion at the end slot (auxiliary to C5). -/
theorem spliceInsert_at_length (l : List VNode) (a : VNode) :
    spliceInsert l l.length a = l ++ [a] := by
  simp [spliceInsert]

/-- `findFrom` finds nothing when the predicate fails everywhere (auxiliary
to C5). -/
theorem findFrom_eq_none (pred : VNode → Bool) (l : List VNode)
    (h : ∀ e ∈ l, pred e = false) : ∀ i, findFrom pred i l = none := by
  induction l with
  | nil => intro i; rfl
  | cons e rest ih =>
    intro i
    rw [findFrom, h e (List.mem_cons_self e rest)]
    simpa using ih (fun e2 he2 => h e2 (List.mem_cons_of_mem e he2)) (i + 1)

/-- The sweep leaves an all-reconciled child list untouched (auxiliary to
C5). -/
theorem removeUnrec_all_used (recon : List Nat) (kids : List VNode) (w : W)
    (h : ∀ k ∈ kids, k.uid ∈ recon) :
    removeUnrec recon kids w = (kids, w, 0) := by
  induction kids with
  | nil => rfl
  | cons c tail ih =>
    have hc : recon.contains c.uid = true := by
      simpa using h c (List.mem_cons_self c tail)
    rw [removeUnrec, hc]
    simp [ih (fun k hk => h k (List.mem_cons_of_mem c hk))]

/-- A successful `create` of a text spec yields the fresh text node
(auxiliary to C5). -/
theorem create_text_shape (fuel : Nat) (env : Env) (v : Val) (p : Nat)
    (o : Int) (w : W) (r : VNode × Int × W)
    (h : create fuel env (Spec.text v) p o w = some r) :
    r.1 = VNode.text w.nextId v 1 := by
  cases fuel with
  | zero => cases h
  | succ n =>
    simp only [create] at h
    split at h
    · cases h
    · cases h
      rfl

/-- The reconciliation loop on a fully reconciled child list appends the
non-null entries' fresh text nodes in order: the `j`-th non-null entry lands
at index `j` past the existing children (auxiliary to C5). -/
theorem c5Loop (rest : List (Option Val)) :
    ∀ (fuel : Nat) (env : Env) (kids : List VNode) (idx nulls : Nat)
      (recon : List Nat) (p : Nat) (b o δ : Int) (w : W)
      (ks : List VNode) (d : Int) (w2 : W),
      (∀ k ∈ kids, k.uid ∈ recon) →
      kids.length = idx - nulls → nulls ≤ idx →
      updateChildrenLoop fuel env kids (rest.map specOfOpt) idx nulls recon
        p b o δ w = some (ks, d, w2) →
      ks.map VNode.textVal = kids.map VNode.textVal
        ++ (rest.filterMap id).map some := by
  induction rest with
  | nil =>
    intro fuel env kids idx nulls recon p b o δ w ks d w2 hall hlen hn h
    cases fuel with
    | zero => cases h
    | succ n =>
      simp only [List.map_nil, updateChildrenLoop] at h
      rw [removeUnrec_all_used recon kids w hall] at h
      cases h
      simp
  | cons ov rest2 ih =>
    intro fuel env kids idx nulls recon p b o δ w ks d w2 hall hlen hn h
    cases fuel with
    | zero => cases h
    | succ n =>
      cases ov with
      | none =>
        simp only [List.map_cons, specOfOpt, updateChildrenLoop] at h
        have hres := ih n env kids (idx + 1) (nulls + 1) recon p b o δ w
          ks d w2 hall (by omega) (by omega) h
        simpa using hres
      | some v =>
        simp only [List.map_cons, specOfOpt, updateChildrenLoop] at h
        have hfm : findMatching (Spec.text v) kids recon = none :=
          findFrom_eq_none _ kids (fun e he => by simp [hall e he]) 0
        simp only [hfm] at h
        cases hc : create n env (Spec.text v) p o w with
        | none =>
          simp only [hc] at h
          cases h
        | some r =>
          simp only [hc] at h
          rw [← hlen, spliceInsert_at_length] at h
          have hr := create_text_shape n env v p o w r hc
          have hres := ih n env (kids ++ [r.1]) (idx + 1) nulls
            (recon ++ [r.1.uid]) p b (o + r.1.count) (δ + r.2.1) r.2.2
            ks d w2
            (fun k hk => by
              rcases List.mem_append.mp hk with hk | hk
              · exact List.mem_append.mpr (Or.inl (hall k hk))
              · simp at hk
                subst hk
                simp)
            (by simp [List.length_append, hlen]; omega) (by omega) h
          rw [hres, hr]
          simp [VNode.textVal]

set_option maxHeartbeats 1600000 in
/-- C5 counterexample: reconciling the children `[null, "x"]` onto a mounted
empty `div` puts the text node at output index 0 (the div's only child), not
at the index-1 slot it would occupy if the null consumed its position — as
it does when the null is replaced by a rendered entry `"y"`. -/
theorem C5_counterexample :
    ((rootRender 20 (fun _ _ _ => Spec.nil) (Spec.dom "div" none (some []))
        mountRoot).bind
      (rootRender 20 (fun _ _ _ => Spec.nil) (Spec.dom "div" none
        (some [Spec.nil, Spec.text (Val.str "x")])))).map
      (fun r => textsUnder 1 r.w.tree)
    = some (some [(2, "x")])
    ∧ ((rootRender 20 (fun _ _ _ => Spec.nil) (Spec.dom "div" none (some []))
        mountRoot).bind
      (rootRender 20 (fun _ _ _ => Spec.nil) (Spec.dom "div" none
        (some [Spec.text (Val.str "y"), Spec.text (Val.str "x")])))).map
      (fun r => textsUnder 1 r.w.tree)
    = some (some [(2, "y"), (3, "x")]) :=
  ⟨rfl, rfl⟩

/-- C5 amended: null entries are skipped (nothing is created or matched for
them) and do NOT consume a target slot — the loop compacts the target index
by the number of nulls seen (`newIndex -= nulls`), so reconciling a fresh
child list leaves exactly the non-null entries, in order, the `j`-th
non-null entry at index `j`. -/
theorem C5_nulls_compact (vs : List (Option Val)) (fuel : Nat) (env : Env)
    (p : Nat) (off : Int) (w : W) (ks : List VNode) (d : Int) (w2 : W)
    (h : updateChildren fuel env [] (vs.map specOfOpt) p off w
      = some (ks, d, w2)) :
    ks.map VNode.textVal = (vs.filterMap id).map some := by
  cases fuel with
  | zero => cases h
  | succ n =>
    simp only [updateChildren] at h
    simpa using c5Loop vs n env [] 0 0 [] p off off 0 w ks d w2
      (by simp) rfl (Nat.le_refl 0) h

/-- C5 amended witness: `[null, "x"]` reconciled onto an empty list yields
exactly the text node for `"x"` at index 0. -/
theorem C5_nulls_compact_witness :
    (updateChildren 10 (fun _ _ _ => Spec.nil) []
        ([none, some (Val.str "x")].map specOfOpt) 1 0
        ⟨.el 0 "root" [.el 1 "div" []], 2, []⟩
      = some ([VNode.text 2 (Val.str "x") 1], 1,
          ⟨.el 0 "root" [.el 1 "div" [.tx 2 "x"]], 3,
           [.createText 2, .attach 2 1 0]⟩))
    ∧ [VNode.text 2 (Val.str "x") 1].map VNode.textVal
        = (([none, some (Val.str "x")] : List (Option Val)).filterMap id).map
            some :=
  ⟨rfl,
   C5_nulls_compact [none, some (Val.str "x")] 10 (fun _ _ _ => Spec.nil) 1 0
     ⟨.el 0 "root" [.el 1 "div" []], 2, []⟩ [VNode.text 2 (Val.str "x") 1] 1
     ⟨.el 0 "root" [.el 1 "div" [.tx 2 "x"]], 3,
      [.createText 2, .attach 2 1 0]⟩ rfl⟩

/-! ## Lemmas for the counts invariant (claim C4) -/

/-- Pointwise reading of `countsOkList`. -/
theorem countsOkList_iff (l : List VNode) :
    countsOkList l = true ↔ ∀ k ∈ l, countsOkB k = true := by
  induction l with
  | nil => simp [countsOkList]
  | cons a t ih => simp [countsOkList, ih]

theorem sumCounts_nil : sumCounts [] = 0 := rfl

theorem sumCounts_cons (a : VNode) (l : List VNode) :
    sumCounts (a :: l) = a.count + sumCounts l := rfl

theorem sumCounts_append (l1 l2 : List VNode) :
    sumCounts (l1 ++ l2) = sumCounts l1 + sumCounts l2 := by
  induction l1 with
  | nil => simp [sumCounts]
  | cons a t ih => simp [sumCounts_cons, ih]; omega

theorem sumCounts_spliceInsert (l : List VNode) (i : Nat) (a : VNode) :
    sumCounts (spliceInsert l i a) = sumCounts l + a.count := by
  have hsplit : sumCounts l = sumCounts (l.take i) + sumCounts (l.drop i) := by
    rw [← sumCounts_append, List.take_append_drop]
  rw [spliceInsert, sumCounts_append, sumCounts_cons]
  omega

theorem sumCounts_set (l : List VNode) :
    ∀ (i : Nat) (x a : VNode), l.get? i = some x →
      sumCounts (l.set i a) = sumCounts l - x.count + a.count := by
  induction l with
  | nil => intro i x a h; cases h
  | cons b t ih =>
    intro i x a h
    cases i with
    | zero =>
      cases h
      simp [List.set, sumCounts_cons]
      omega
    | succ j =>
      simp only [List.get?] at h
      simp [List.set, sumCounts_cons, ih j x a h]
      omega

theorem sumCounts_spliceRemove (l : List VNode) :
    ∀ (i : Nat) (x : VNode), l.get? i = some x →
      sumCounts (spliceRemove l i) = sumCounts l - x.count := by
  induction l with
  | nil => intro i x h; cases h
  | cons b t ih =>
    intro i x h
    cases i with
    | zero =>
      cases h
      simp [spliceRemove, sumCounts_cons]
    | succ j =>
      simp only [List.get?] at h
      have := ih j x h
      simp only [spliceRemove] at this ⊢
      simp [List.take, List.drop, sumCounts_cons, this]
      omega

theorem get?_set_self (l : List VNode) :
    ∀ (i : Nat) (x a : VNode), l.get? i = some x →
      (l.set i a).get? i = some a := by
  induction l with
  | nil => intro i x a h; cases h
  | cons b t ih =>
    intro i x a h
    cases i with
    | zero => rfl
    | succ j =>
      simp only [List.get?] at h ⊢
      simp [List.set]
      simpa using ih j x a h

theorem countsOkList_spliceInsert (l : List VNode) (i : Nat) (a : VNode)
    (hl : countsOkList l = true) (ha : countsOkB a = true) :
    countsOkList (spliceInsert l i a) = true := by
  rw [countsOkList_iff] at hl ⊢
  intro k hk
  rw [spliceInsert] at hk
  rcases List.mem_append.mp hk with hk | hk
  · exact hl k (List.take_subset i l hk)
  · rcases List.mem_cons.mp hk with hk | hk
    · exact hk ▸ ha
    · exact hl k (List.drop_subset i l hk)

theorem countsOkList_set (l : List VNode) (i : Nat) (a : VNode)
    (hl : countsOkList l = true) (ha : countsOkB a = true) :
    countsOkList (l.set i a) = true := by
  rw [countsOkList_iff] at hl ⊢
  intro k hk
  rcases List.mem_or_eq_of_mem_set hk with hk | hk
  · exact hl k hk
  · exact hk ▸ ha

theorem countsOkList_spliceRemove (l : List VNode) (i : Nat)
    (hl : countsOkList l = true) : countsOkList (spliceRemove l i) = true := by
  rw [countsOkList_iff] at hl ⊢
  intro k hk
  rw [spliceRemove] at hk
  rcases List.mem_append.mp hk with hk | hk
  · exact hl k (List.take_subset i l hk)
  · exact hl k (List.drop_subset (i + 1) l hk)

/-- `findFrom` returns an element of the list at the reported position. -/
theorem findFrom_some_get (pred : VNode → Bool) (l : List VNode) :
    ∀ (i : Nat) (fnd : Nat × VNode), findFrom pred i l = some fnd →
      l.get? (fnd.1 - i) = some fnd.2 ∧ i ≤ fnd.1 := by
  induction l with
  | nil => intro i fnd h; cases h
  | cons e rest ih =>
    intro i fnd h
    rw [findFrom] at h
    by_cases hp : pred e = true
    · rw [hp] at h
      simp at h
      cases h
      simp
    · rw [Bool.not_eq_true] at hp
      rw [hp] at h
      simp at h
      obtain ⟨hget, hle⟩ := ih (i + 1) fnd h
      refine ⟨?_, by omega⟩
      have : fnd.1 - i = (fnd.1 - (i + 1)) + 1 := by omega
      rw [this]
      simpa using hget

/-- `findMatching` returns an element of the child list at the reported
position. -/
theorem findMatching_some_get (s : Spec) (kids : List VNode) (used : List Nat)
    (fnd : Nat × VNode) (h : findMatching s kids used = some fnd) :
    kids.get? fnd.1 = some fnd.2 := by
  cases s <;>
    simpa using (findFrom_some_get _ kids 0 fnd (by simpa [findMatching] using h)).1

mutual

/-- With `skipDomRemoval` set, `remove` performs no ancestor-count
decrements (auxiliary to C4). -/
theorem removeNode_true_delta (n : VNode) (w : W) :
    (removeNode n true w).2 = 0 := by
  cases n with
  | text u v c => rfl
  | elem u t p kids c => simp [removeNode]
  | arr u kids c => simpa [removeNode] using removeList_true_delta kids w
  | comp u f p ch r c =>
    cases r with
    | none => rfl
    | some rr => simpa [removeNode] using removeNode_true_delta rr w

theorem removeList_true_delta (l : List VNode) (w : W) :
    (removeList l true w).2 = 0 := by
  cases l with
  | nil => rfl
  | cons n rest =>
    simp [removeList, removeNode_true_delta n w,
      removeList_true_delta rest (removeNode n true w).1]

end

mutual

/-- Removing a count-consistent subtree decrements the ancestors by exactly
its `domNodesCount` (auxiliary to C4). -/
theorem removeNode_false_delta (n : VNode) (w : W)
    (h : countsOkB n = true) : (removeNode n false w).2 = n.count := by
  cases n with
  | text u v c =>
    simp only [countsOkB, beq_iff_eq] at h
    simp [removeNode, VNode.count, h]
  | elem u t p kids c =>
    simp only [countsOkB, Bool.and_eq_true, beq_iff_eq] at h
    simp [removeNode, VNode.count, h.1]
  | arr u kids c =>
    simp only [countsOkB, Bool.and_eq_true, beq_iff_eq] at h
    have := removeList_false_delta kids w h.2
    simpa [removeNode, VNode.count, h.1] using this
  | comp u f p ch r c =>
    cases r with
    | none =>
      simp only [countsOkB, beq_iff_eq] at h
      simp [removeNode, VNode.count, h]
    | some rr =>
      simp only [countsOkB, Bool.and_eq_true, beq_iff_eq] at h
      have := removeNode_false_delta rr w h.2
      simp [removeNode, VNode.count, h.1, this]

theorem removeList_false_delta (l : List VNode) (w : W)
    (h : countsOkList l = true) : (removeList l false w).2 = sumCounts l := by
  cases l with
  | nil => rfl
  | cons n rest =>
    simp only [countsOkList, Bool.and_eq_true] at h
    have h1 := removeNode_false_delta n w h.1
    have h2 := removeList_false_delta rest (removeNode n false w).1 h.2
    simp [removeList, h1, h2, sumCounts_cons]

end

/-- The unreconciled-children sweep keeps counts consistent and its total
removal delta is the drop in the children's count sum (auxiliary to C4). -/
theorem removeUnrec_delta (recon : List Nat) :
    ∀ (bound : Nat) (kids : List VNode) (w : W), kids.length ≤ bound →
      countsOkList kids = true →
      countsOkList (removeUnrec recon kids w).1 = true
      ∧ (removeUnrec recon kids w).2.2
          = sumCounts kids - sumCounts (removeUnrec recon kids w).1 := by
  intro bound
  induction bound with
  | zero =>
    intro kids w hb _
    have : kids = [] := List.eq_nil_of_length_eq_zero (Nat.le_zero.mp hb)
    subst this
    exact ⟨rfl, by simp [removeUnrec, sumCounts_nil]⟩
  | succ m ih =>
    intro kids w hb h
    cases kids with
    | nil => exact ⟨rfl, by simp [removeUnrec, sumCounts_nil]⟩
    | cons c tail =>
      simp only [countsOkList, Bool.and_eq_true] at h
      by_cases hc : recon.contains c.uid = true
      · have hm : c.uid ∈ recon := by simpa using hc
        have hstep : removeUnrec recon (c :: tail) w
            = (c :: (removeUnrec recon tail w).1,
               (removeUnrec recon tail w).2.1,
               (removeUnrec recon tail w).2.2) := by
          simp [removeUnrec, hm]
        have hrec := ih tail w (by simpa using Nat.le_of_succ_le_succ hb) h.2
        rw [hstep]
        simp only [countsOkList, Bool.and_eq_true, sumCounts_cons]
        exact ⟨⟨h.1, hrec.1⟩, by have := hrec.2; omega⟩
      · have hm : c.uid ∉ recon := by simpa using hc
        have hdel := removeNode_false_delta c w h.1
        cases tail with
        | nil =>
          have hstep : removeUnrec recon [c] w
              = ([], (removeNode c false w).1, (removeNode c false w).2) := by
            simp [removeUnrec, hm]
          rw [hstep]
          refine ⟨rfl, ?_⟩
          simp only [sumCounts_cons, sumCounts_nil]
          omega
        | cons dn tail2 =>
          simp only [countsOkList, Bool.and_eq_true] at h
          have hstep : removeUnrec recon (c :: dn :: tail2) w
              = (dn :: (removeUnrec recon tail2 (removeNode c false w).1).1,
                 (removeUnrec recon tail2 (removeNode c false w).1).2.1,
                 (removeNode c false w).2
                   + (removeUnrec recon tail2 (removeNode c false w).1).2.2) := by
            simp [removeUnrec, hm]
          have hrec := ih tail2 ((removeNode c false w).1)
            (by simp at hb ⊢; omega) h.2.2
          rw [hstep]
          simp only [countsOkList, Bool.and_eq_true, sumCounts_cons]
          refine ⟨⟨h.2.1, hrec.1⟩, ?_⟩
          have := hrec.2
          omega

/-- Appending one consistent node keeps a child list consistent (auxiliary
to C4). -/
theorem countsOkList_append_single (l : List VNode) (a : VNode)
    (hl : countsOkList l = true) (ha : countsOkB a = true) :
    countsOkList (l ++ [a]) = true := by
  rw [countsOkList_iff] at hl ⊢
  intro k hk
  rcases List.mem_append.mp hk with hk | hk
  · exact hl k hk
  · simp at hk
    exact hk ▸ ha

theorem count_comp (u fn : Nat) (pr : Option Props) (ch : Option (List Spec))
    (r : Option VNode) (c : Int) : (VNode.comp u fn pr ch r c).count = c := rfl

theorem count_elem (u : Nat) (t : String) (pr : Option Props)
    (ks : List VNode) (c : Int) : (VNode.elem u t pr ks c).count = c := rfl

theorem count_text (u : Nat) (v : Val) (c : Int) :
    (VNode.text u v c).count = c := rfl

theorem count_arr (u : Nat) (ks : List VNode) (c : Int) :
    (VNode.arr u ks c).count = c := rfl

/-- C4 master induction: all reconciler operations preserve the counts
invariant and report exact crossing deltas, at every fuel. -/
theorem C4all : ∀ fuel, C4P fuel := by
  intro fuel
  induction fuel with
  | zero =>
    refine ⟨?_, ?_, ?_, ?_, ?_, ?_, ?_⟩ <;> intro _ <;> intros <;>
      exact absurd (by assumption) (by intro hzero; exact Option.noConfusion hzero)
  | succ m ih =>
    obtain ⟨ihC, ihDK, ihAI, ihRC, ihU, ihUC, ihL⟩ := ih
    refine ⟨?_, ?_, ?_, ?_, ?_, ?_, ?_⟩
    -- create
    · intro env spec p o w r h
      cases spec with
      | dom tag props children =>
        simp only [create] at h
        split at h
        · cases h
        · rename_i t2 hat
          split at h
          · cases h
          · rename_i rk hdk
            have hk := ihDK env (children.getD []) w.nextId 0 [] _ rk rfl hdk
            cases h
            cases props <;>
              simp [countsOkB, count_elem, hk]
      | comp fn props children =>
        apply ihRC env w.nextId fn props children none 0 p o _ r rfl at h
        exact ⟨h.1, by have := h.2; omega⟩
      | arr items =>
        simp only [create] at h
        split at h
        · cases h
        · rename_i ra hai
          have ha := ihAI env items p o [] 0 _ ra rfl rfl hai
          cases h
          dsimp only
          simp [countsOkB, count_arr, ha.1, ha.2]
      | text v =>
        simp only [create] at h
        split at h
        · cases h
        · cases h
          dsimp only
          simp [countsOkB, count_text]
      | nil =>
        simp only [create] at h
        split at h
        · cases h
        · cases h
          dsimp only
          simp [countsOkB, count_text]
    -- createDomKids
    · intro env specs pid co acc w r hacc h
      cases specs with
      | nil =>
        simp only [createDomKids] at h
        cases h
        exact hacc
      | cons s rest =>
        simp only [createDomKids] at h
        split at h
        · exact ihDK env rest pid co acc w r hacc h
        · split at h
          · cases h
          · rename_i rc hcr
            have hc := ihC env s pid co w rc hcr
            exact ihDK env rest pid _ (acc ++ [rc.1]) _ r
              (countsOkList_append_single acc rc.1 hacc hc.1) h
    -- createArrItems
    · intro env specs p o acc ac w r hacc hsum h
      cases specs with
      | nil =>
        simp only [createArrItems] at h
        cases h
        exact ⟨hacc, hsum⟩
      | cons s rest =>
        simp only [createArrItems] at h
        split at h
        · exact ihAI env rest p o acc ac w r hacc hsum h
        · split at h
          · cases h
          · rename_i rc hcr
            have hc := ihC env s p (o + ac) w rc hcr
            exact ihAI env rest p o (acc ++ [rc.1]) (ac + rc.2.1) rc.2.2 r
              (countsOkList_append_single acc rc.1 hacc hc.1)
              (by rw [sumCounts_append, sumCounts_cons, sumCounts_nil, hsum,
                  hc.2]; omega)
              h
    -- renderComponent
    · intro env u fn props children oldR oldC p o w r hold h
      simp only [renderComponent] at h
      by_cases hcu : canUpdate oldR (env fn props children) = true
      · rw [if_pos hcu] at h
        cases oldR with
        | none => simp [canUpdate] at hcu
        | some ex =>
          obtain ⟨hex, hcount⟩ := hold
          cases hu : update m env ex (env fn props children) p o w with
          | none => simp only [hu] at h; exact Option.noConfusion h
          | some ru =>
            simp only [hu, Option.some.injEq] at h
            have hres := ihU env ex (env fn props children) p o w ru hex hu
            cases h
            dsimp only
            simp only [countsOkB, count_comp, Bool.and_eq_true, beq_iff_eq]
            have h2 := hres.2
            exact ⟨⟨by omega, hres.1⟩, by omega⟩
      · rw [if_neg hcu] at h
        cases oldR with
        | none =>
          have hold0 : oldC = 0 := hold
          split at h
          · cases h
            dsimp only
            simp only [countsOkB, count_comp, beq_iff_eq]
            omega
          · split at h
            · cases h
            · rename_i rc hcr
              have hc := ihC env (env fn props children) p o _ rc hcr
              cases h
              dsimp only
              simp only [countsOkB, count_comp, Bool.and_eq_true, beq_iff_eq]
              have h2 := hc.2
              exact ⟨⟨by omega, hc.1⟩, by omega⟩
        | some ex =>
          obtain ⟨hex, hcount⟩ := hold
          have hdel := removeNode_false_delta ex w hex
          split at h
          · cases h
            dsimp only
            simp only [countsOkB, count_comp, beq_iff_eq]
            omega
          · split at h
            · cases h
            · rename_i rc hcr
              have hc := ihC env (env fn props children) p o _ rc hcr
              cases h
              dsimp only
              simp only [countsOkB, count_comp, Bool.and_eq_true, beq_iff_eq]
              have h2 := hc.2
              exact ⟨⟨by omega, hc.1⟩, by omega⟩
    -- update
    · intro env ex spec p o w r hex h
      cases ex with
      | text u v cnt =>
        simp only [update] at h
        split at h
        · cases h
        · cases h
          simp only [countsOkB, beq_iff_eq] at hex
          dsimp only
          simp only [countsOkB, count_text, beq_iff_eq]
          omega
      | comp u fn props children rendered cnt =>
        simp only [update] at h
        split at h
        · rename_i props2 children2
          cases rendered with
          | none =>
            have hres := ihRC env u fn props2 children2 none cnt p o w r
              (by simpa [countsOkB] using hex) h
            exact ⟨hres.1, by have := hres.2; simp only [count_comp]; omega⟩
          | some rr =>
            simp only [countsOkB, Bool.and_eq_true, beq_iff_eq] at hex
            have hres := ihRC env u fn props2 children2 (some rr) cnt p o w r
              ⟨hex.2, hex.1⟩ h
            exact ⟨hres.1, by have := hres.2; simp only [count_comp]; omega⟩
        · cases h
          exact ⟨hex, by dsimp only; omega⟩
      | elem u tag props kids cnt =>
        simp only [update] at h
        split at h
        · rename_i props2 children2
          split at h
          · cases h
          · rename_i ruc huc
            simp only [countsOkB, Bool.and_eq_true, beq_iff_eq] at hex
            have hres := ihUC env kids (children2.getD []) u 0 w ruc hex.2 huc
            cases h
            dsimp only
            simp only [countsOkB, count_elem, Bool.and_eq_true, beq_iff_eq]
            exact ⟨⟨hex.1, hres.1⟩, by omega⟩
        · cases h
          exact ⟨hex, by dsimp only; omega⟩
      | arr u kids cnt =>
        simp only [update] at h
        split at h
        · rename_i items
          split at h
          · cases h
          · rename_i ruc huc
            simp only [countsOkB, Bool.and_eq_true, beq_iff_eq] at hex
            have hres := ihUC env kids items p o w ruc hex.2 huc
            cases h
            dsimp only
            simp only [countsOkB, count_arr, Bool.and_eq_true, beq_iff_eq]
            have h2 := hres.2
            exact ⟨⟨by omega, hres.1⟩, by omega⟩
        · cases h
          exact ⟨hex, by dsimp only; omega⟩
    -- updateChildren
    · intro env kids specs p o w r hk h
      simp only [updateChildren] at h
      have hres := ihL env kids specs 0 0 [] p o o 0 w r hk h
      exact ⟨hres.1, by have := hres.2; omega⟩
    -- updateChildrenLoop
    · intro env kids rest idx nulls recon p b o δ w r hk h
      cases rest with
      | nil =>
        simp only [updateChildrenLoop] at h
        have hrem := removeUnrec_delta recon kids.length kids w (Nat.le_refl _) hk
        cases h
        exact ⟨hrem.1, by have := hrem.2; dsimp only; omega⟩
      | cons s rest2 =>
        simp only [updateChildrenLoop] at h
        split at h
        · exact ihL env kids rest2 (idx + 1) (nulls + 1) recon p b o δ w r hk h
        · split at h
          · split at h
            · cases h
            · rename_i rc hcr
              have hc := ihC env s p o w rc hcr
              have hres := ihL env (spliceInsert kids (idx - nulls) rc.1) rest2
                (idx + 1) nulls (recon ++ [rc.1.uid]) p b (o + rc.1.count)
                (δ + rc.2.1) rc.2.2 r
                (countsOkList_spliceInsert kids (idx - nulls) rc.1 hk hc.1) h
              refine ⟨hres.1, ?_⟩
              have h1 := hres.2
              have h2 := sumCounts_spliceInsert kids (idx - nulls) rc.1
              have h3 := hc.2
              omega
          · rename_i fnd hfm
            have hget := findMatching_some_get s kids recon fnd hfm
            have hmem : fnd.2 ∈ kids := List.get?_mem hget
            have hexok : countsOkB fnd.2 = true :=
              (countsOkList_iff kids).mp hk fnd.2 hmem
            split at h
            · cases h
            · rename_i ru hu
              have hures := ihU env fnd.2 s p
                (b + sumCounts (kids.take fnd.1)) w ru hexok hu
              have hset_ok : countsOkList (listSetAt kids fnd.1 ru.1) = true :=
                countsOkList_set kids fnd.1 ru.1 hk hures.1
              have hset_sum : sumCounts (listSetAt kids fnd.1 ru.1)
                  = sumCounts kids - fnd.2.count + ru.1.count :=
                sumCounts_set kids fnd.1 fnd.2 ru.1 hget
              split at h
              · have hres := ihL env (listSetAt kids fnd.1 ru.1) rest2 (idx + 1)
                  nulls (recon ++ [fnd.2.uid]) p b (o + ru.1.count)
                  (δ + ru.2.1) ru.2.2 r hset_ok h
                refine ⟨hres.1, ?_⟩
                have h1 := hres.2
                have h2 := hures.2
                omega
              · split at h
                · cases h
                · rename_i mv hmv
                  have hget2 : (listSetAt kids fnd.1 ru.1).get? fnd.1
                      = some ru.1 :=
                    get?_set_self kids fnd.1 fnd.2 ru.1 hget
                  have hrm_ok : countsOkList
                      (spliceRemove (listSetAt kids fnd.1 ru.1) fnd.1) = true :=
                    countsOkList_spliceRemove _ fnd.1 hset_ok
                  have hrm_sum := sumCounts_spliceRemove
                    (listSetAt kids fnd.1 ru.1) fnd.1 ru.1 hget2
                  have hins_ok : countsOkList (spliceInsert
                      (spliceRemove (listSetAt kids fnd.1 ru.1) fnd.1)
                      (idx - nulls) ru.1) = true :=
                    countsOkList_spliceInsert _ (idx - nulls) ru.1 hrm_ok
                      hures.1
                  have hins_sum := sumCounts_spliceInsert
                    (spliceRemove (listSetAt kids fnd.1 ru.1) fnd.1)
                    (idx - nulls) ru.1
                  have hres := ihL env (spliceInsert
                      (spliceRemove (listSetAt kids fnd.1 ru.1) fnd.1)
                      (idx - nulls) ru.1) rest2 (idx + 1) nulls
                    (recon ++ [fnd.2.uid]) p b (o + ru.1.count) (δ + ru.2.1)
                    mv.1 r hins_ok h
                  refine ⟨hres.1, ?_⟩
                  have h1 := hres.2
                  have h2 := hures.2
                  omega

/-- Auxiliary environment for the C4 witness: every component renders null. -/
def envC4w : Env := fun _ _ _ => Spec.nil

/-- The root state after rendering the text spec "hi" into a fresh root. -/
def rootC4w : RootEl :=
  ⟨some (.text 1 (.str "hi") 1),
   ⟨.el 0 "root" [.tx 1 "hi"], 2, [.createText 1, .attach 1 0 0]⟩⟩

/-- C4: in every shadow tree reachable from a mounted root by any sequence of
render and unmount calls (hence by any sequence of the reconciler's create,
update, move and remove operations), every Host and Text node carries
`domNodesCount` exactly 1, and every Array and Component node carries
`domNodesCount` equal to the sum of its children's counts (0 when nothing is
rendered): `countsOkB` holds of the root's rendered tree. -/
theorem C4_counts_invariant (env : Env) (r : RootEl) (h : Reaches env r) :
    ∀ n : VNode, r.rendered = some n → countsOkB n = true := by
  induction h with
  | mounted => intro n hn; exact Option.noConfusion hn
  | rendered r r2 fuel spec hre hrr ih =>
    intro n hn
    simp only [rootRender] at hrr
    by_cases hcu : canUpdate r.rendered spec = true
    · rw [if_pos hcu] at hrr
      cases hex : r.rendered with
      | none => simp only [hex] at hrr; exact Option.noConfusion hrr
      | some ex =>
        simp only [hex] at hrr
        cases hu : update fuel env ex spec 0 0 r.w with
        | none => simp only [hu] at hrr; exact Option.noConfusion hrr
        | some res =>
          simp only [hu, Option.some.injEq] at hrr
          have hres := ((C4all fuel).2.2.2.2.1) env ex spec 0 0 r.w res
            (ih ex hex) hu
          cases hrr
          have hn2 : some res.1 = some n := hn
          obtain rfl := Option.some.inj hn2
          exact hres.1
    · rw [if_neg hcu] at hrr
      split at hrr
      · injection hrr with h2
        subst h2
        exact ih n hn
      · split at hrr
        · exact Option.noConfusion hrr
        · rename_i res hc
          injection hrr with h2
          subst h2
          have hres := ((C4all fuel).1) env _ 0 0 _ res hc
          have hn2 : some res.1 = some n := hn
          obtain rfl := Option.some.inj hn2
          exact hres.1
  | unmounted r hre ih =>
    intro n hn
    cases r with
    | mk rend w => cases rend <;> exact Option.noConfusion hn

/-- Witness: the invariant at a concrete reachable state — one render of the
text spec "hi" into a fresh root. -/
theorem C4_counts_invariant_witness :
    countsOkB (VNode.text 1 (Val.str "hi") 1) = true :=
  C4_counts_invariant envC4w rootC4w
    (Reaches.rendered mountRoot rootC4w 1 (Spec.text (Val.str "hi"))
      Reaches.mounted (by rfl))
    (VNode.text 1 (Val.str "hi") 1) (by rfl)
